import Mathlib

/-
Verification of the StockAlert repository's stock-change detection and
deduplication core.

The program's final entry point (the `app.js` code shipped in the image,
reproduced in the repository next to `config.js` and `scraper.js`) is
embedded below as executable Lean definitions:

  * `StockAlert.signature`      — the Stock Signature Engine
    (`allCurrentStockItems` / `sort().join(',')` in `checkStockAndNotify`);
  * `StockAlert.isQuietHours`   — the quiet-hours decision of the Time Gate;
  * `StockAlert.matchCategory` / `matchAll` — the keyword-matching loop of
    `checkStockAndNotify`, which threads the `notifiedItemsThisOverallStockCycle`
    set through the three categories;
  * `StockAlert.findNewKeywordItemsInCategory` — the stand-alone Keyword
    Matcher function of the `FetchData.js` variants (pure, set is read-only);
  * `StockAlert.checkStockAndNotify` — the Cycle Orchestrator, with the
    external Stock Provider response, the quiet-hours verdict of the current
    instant and the Alert Sender's success value passed in as inputs;
  * `StockAlert.fetchStockData`  — the category-folding and item-filtering
    layer of `scraper.js`, over an abstract already-parsed page.

JavaScript strings are modelled by `String`; a JS `Set` of strings is
modelled by an insertion-ordered duplicate-free `List String`
(`Set.prototype.add` appends when absent).  `Array.prototype.sort()` with the
default comparator is a comparison sort by a total string order; for every
property below only the canonical-form character of sorting matters, so it is
embedded as `List.insertionSort` over the string linear order.
-/

namespace StockAlert

/-- Boolean test that `pre` is a leading run of `l`, character by character
(the character-list core of JS `String.prototype.startsWith`). -/
def startsWithChars : List Char → List Char → Bool
  | [], _ => true
  | _ :: _, [] => false
  | a :: as, b :: bs => a == b && startsWithChars as bs

/-- Boolean test that `sub` occurs contiguously inside `l`
(the character-list core of JS `String.prototype.includes`). -/
def hasSubChars (sub : List Char) : List Char → Bool
  | [] => sub.isEmpty
  | b :: bs => startsWithChars sub (b :: bs) || hasSubChars sub bs

/-- JS `s.includes(sub)` on the code-point sequences of the two strings. -/
def jsIncludes (s sub : String) : Bool := hasSubChars sub.data s.data

/-- Lower-casing of one character.  The names and keywords this program
compares are ASCII, where JS `toLowerCase()` is exactly the A–Z shift. -/
def charLower (c : Char) : Char :=
  if 65 ≤ c.toNat ∧ c.toNat ≤ 90 then Char.ofNat (c.toNat + 32) else c

/-- JS `String.prototype.toLowerCase`. -/
def jsToLower (s : String) : String := ⟨s.data.map charLower⟩

/-- Whitespace test for `jsTrim` (space, tab, newline, carriage return). -/
def isSpaceChar (c : Char) : Bool := c == ' ' || c == '\t' || c == '\n' || c == '\r'

/-- JS `String.prototype.trim`: strip whitespace from both ends. -/
def jsTrim (s : String) : String :=
  ⟨((s.data.dropWhile isSpaceChar).reverse.dropWhile isSpaceChar).reverse⟩

/-- One stock item as the scraper produces it: a record with a `name` field.
`none` models an absent or non-string `name`. -/
structure StockItem where
  name : Option String
deriving DecidableEq

/-- A stock snapshot: the three category arrays returned by `fetchStockData`. -/
structure Stock where
  seedsStock : List StockItem
  eggStock : List StockItem
  gearStock : List StockItem
deriving DecidableEq

/-- JS truthiness of `item.name`: a present, non-empty string.  Both the
signature loop (`if (item && item.name)`) and the matcher loop
(`if (!item || !item.name) return`) of the orchestrator use this test. -/
def truthyName (it : StockItem) : Option String :=
  match it.name with
  | none => none
  | some n => if n = "" then none else some n

/-- The `categoryMap` of `checkStockAndNotify`: label for `seedsStock`. -/
def seedsLabel : String := "Seeds"

/-- The `categoryMap` of `checkStockAndNotify`: label for `eggStock`. -/
def eggLabel : String := "Egg"

/-- The `categoryMap` of `checkStockAndNotify`: label for `gearStock`. -/
def gearLabel : String := "Gear/Honey/Cosmetics"

/-- The `(name, mapped category label)` pairs of the truthy-named items of a
snapshot, in the iteration order of the orchestrator
(`seedsStock`, `eggStock`, `gearStock`). -/
def pairs (st : Stock) : List (String × String) :=
  (st.seedsStock.filterMap truthyName).map (fun n => (n, seedsLabel)) ++
  (st.eggStock.filterMap truthyName).map (fun n => (n, eggLabel)) ++
  (st.gearStock.filterMap truthyName).map (fun n => (n, gearLabel))

/-- The token `` `${item.name}|${categoryMap[catKey]}` `` pushed for one item. -/
def encodeToken (p : String × String) : String := p.1 ++ "|" ++ p.2

/-- `allCurrentStockItems`: the token list the signature is computed from. -/
def sigTokens (st : Stock) : List String := (pairs st).map encodeToken

/-- Lexicographic comparison of character lists by code point, the order JS
`Array.prototype.sort()` applies to the token strings (all tokens the scraper
can produce are ASCII, where code-point and UTF-16 order agree). -/
def listLeb : List Char → List Char → Bool
  | [], _ => true
  | _ :: _, [] => false
  | a :: as, b :: bs =>
    if a.toNat < b.toNat then true
    else if b.toNat < a.toNat then false
    else listLeb as bs

/-- String comparison by the code points of the two strings. -/
def strLeb (a b : String) : Bool := listLeb a.data b.data

/-- JS `Array.prototype.sort()` on strings, embedded as an insertion sort by
the total string order (any comparison sort yields the same sorted list). -/
def sortStrings (l : List String) : List String :=
  l.insertionSort (fun a b => strLeb a b = true)

/-- JS `Array.prototype.join(',')`. -/
def joinComma : List String → String
  | [] => ""
  | [x] => x
  | x :: y :: ys => x ++ "," ++ joinComma (y :: ys)

/-- `currentOverallStockSignature`: sorted, comma-joined token list. -/
def signature (st : Stock) : String := joinComma (sortStrings (sigTokens st))

/-- Character-level version of `joinComma`. -/
def joinData : List (List Char) → List Char
  | [] => []
  | [x] => x
  | x :: y :: ys => x ++ ',' :: joinData (y :: ys)

/-- Counterexample snapshot: one item named `a` in seeds and one named `b`
in eggs. -/
def cex2A : Stock := ⟨[⟨some "a"⟩], [⟨some "b"⟩], []⟩

/-- Counterexample snapshot: a single egg item whose name contains the comma
and pipe characters, colliding with `cex2A` in the joined signature. -/
def cex2B : Stock := ⟨[], [⟨some "a|Seeds,b"⟩], []⟩

/-- Witness snapshot for the amended signature claim. -/
def wit2A : Stock := ⟨[⟨some "Mango"⟩, ⟨some "Kiwi"⟩], [], []⟩

/-- Witness snapshot: `wit2A` with the two seed items swapped. -/
def wit2B : Stock := ⟨[⟨some "Kiwi"⟩, ⟨some "Mango"⟩], [], []⟩

/-- The quiet-hours decision of the Time Gate (`isQuietHours` in the app
entry point), as a function of the configured start hour, end hour and the
current hour-of-day in the configured timezone. -/
def isQuietHours (startH endH hour : Nat) : Bool :=
  if startH < endH then
    decide (startH ≤ hour) && decide (hour < endH)
  else
    decide (startH ≤ hour) || decide (hour < endH)

/-- One element of `newlyFoundKeywordItems`: the item's name, its mapped
category label, and the keyword that matched it. -/
structure MatchResult where
  name : String
  category : String
  matchedKeyword : String
deriving DecidableEq

/-- The dedupe key of a match: `` `${item.name}|${item.category}` ``. -/
def tokenOf (m : MatchResult) : String := m.name ++ "|" ++ m.category

/-- The keyword scan for one item:
`KEYWORDS_TO_MONITOR.find(kw => lowerCaseItemName.includes(kw.toLowerCase()))`.
Returns the first keyword, in keyword-list order, that is a case-insensitive
substring of the item's name. -/
def firstKeywordMatch (keywords : List String) (name : String) : Option String :=
  keywords.find? (fun kw => jsIncludes (jsToLower name) (jsToLower kw))

/-- JS `Set.prototype.add` on the insertion-ordered list model of a set. -/
def addToken (tok : String) (s : List String) : List String :=
  if tok ∈ s then s else s ++ [tok]

/-- The orchestrator's matching loop over one category's items
(`stock[catKey].forEach` inside `checkStockAndNotify`): skips falsy names,
skips tokens already in the running notified set, records the first matching
keyword and adds the token to the set immediately. -/
def matchCategory (keywords : List String) (cat : String) :
    List StockItem → List String → List MatchResult × List String
  | [], acc => ([], acc)
  | it :: rest, acc =>
    match truthyName it with
    | none => matchCategory keywords cat rest acc
    | some n =>
      if n ++ "|" ++ cat ∈ acc then matchCategory keywords cat rest acc
      else
        match firstKeywordMatch keywords n with
        | some kw =>
          (⟨n, cat, kw⟩ ::
            (matchCategory keywords cat rest (addToken (n ++ "|" ++ cat) acc)).1,
            (matchCategory keywords cat rest (addToken (n ++ "|" ++ cat) acc)).2)
        | none => matchCategory keywords cat rest acc

/-- The matching pass over all three categories in the fixed iteration order,
threading the notified set through. -/
def matchAll (keywords : List String) (st : Stock) (acc : List String) :
    List MatchResult × List String :=
  ((matchCategory keywords seedsLabel st.seedsStock acc).1 ++
    (matchCategory keywords eggLabel st.eggStock
      (matchCategory keywords seedsLabel st.seedsStock acc).2).1 ++
    (matchCategory keywords gearLabel st.gearStock
      (matchCategory keywords eggLabel st.eggStock
        (matchCategory keywords seedsLabel st.seedsStock acc).2).2).1,
   (matchCategory keywords gearLabel st.gearStock
      (matchCategory keywords eggLabel st.eggStock
        (matchCategory keywords seedsLabel st.seedsStock acc).2).2).2)

/-- The module-level mutable state of the orchestrator: the notified-items
set, the previous overall stock signature, and the `isCheckRunning` lock. -/
structure AppState where
  notified : List String
  prevSig : String
  isCheckRunning : Bool
deriving DecidableEq

/-- What one invocation of the orchestrator produces: the state afterwards,
the `newlyFoundKeywordItems` batch, and the message body handed to the Alert
Sender (`none` when the sender was not invoked). -/
structure CycleOutcome where
  state : AppState
  newlyFound : List MatchResult
  sentBody : Option String
deriving DecidableEq

/-- The consolidated `messageBody` built from the batch. -/
def buildBody (ms : List MatchResult) : String :=
  ms.foldl (fun acc m => acc ++ "\n- *" ++ m.name ++ "* (Category: " ++ m.category ++ ")")
    "*Grow A Garden Stock Alert!* 🌱\n\nNew items in stock:\n"

/-- The Cycle Orchestrator `checkStockAndNotify`.  External collaborators
enter as inputs: `fetch` is the Stock Provider's response (`none` models the
null/failure signal), `quiet` is the Time Gate's quiet-hours verdict at the
send instant, and `sendOk` the Alert Sender's success value.  The sender's
result is consumed only by logging, so it does not occur in the outcome. -/
def checkStockAndNotify (keywords : List String) (s : AppState)
    (fetch : Option Stock) (quiet : Bool) (_sendOk : Bool) : CycleOutcome :=
  if s.isCheckRunning then ⟨s, [], none⟩
  else
    match fetch with
    | none => ⟨⟨s.notified, s.prevSig, false⟩, [], none⟩
    | some stock =>
      ⟨⟨(matchAll keywords stock
            (if signature stock ≠ s.prevSig then [] else s.notified)).2,
         (if signature stock ≠ s.prevSig then signature stock else s.prevSig),
         false⟩,
       (matchAll keywords stock
            (if signature stock ≠ s.prevSig then [] else s.notified)).1,
       (if (matchAll keywords stock
            (if signature stock ≠ s.prevSig then [] else s.notified)).1.isEmpty
        then none
        else if quiet then none
        else some (buildBody (matchAll keywords stock
            (if signature stock ≠ s.prevSig then [] else s.notified)).1))⟩

/-- The `finally` clause of the orchestrator: release the lock, whatever
state the body left behind. -/
def releaseLock (s : AppState) : AppState := { s with isCheckRunning := false }

/-- The orchestrator under the try/catch/finally semantics with a possible
fault: `fault = some mid` models an unexpected exception thrown inside the
body after it has driven the state to `mid`; the catch block only logs, and
the finally block releases the lock on that state.  `fault = none` is the
normal execution. -/
def checkStockAndNotifyWithFault (keywords : List String) (s : AppState)
    (fetch : Option Stock) (quiet : Bool) (sendOk : Bool)
    (fault : Option AppState) : CycleOutcome :=
  if s.isCheckRunning then ⟨s, [], none⟩
  else
    match fault with
    | some mid => ⟨releaseLock mid, [], none⟩
    | none => checkStockAndNotify keywords s fetch quiet sendOk

/-- The per-cycle match batches of a run of consecutive scheduled cycles,
each cycle fed its fetched snapshot and quiet-hours verdict. -/
def traceMatches (keywords : List String) (s : AppState) :
    List (Option Stock × Bool) → List (List MatchResult)
  | [] => []
  | inp :: rest =>
    (checkStockAndNotify keywords s inp.1 inp.2 true).newlyFound ::
      traceMatches keywords (checkStockAndNotify keywords s inp.1 inp.2 true).state rest

/-- Boolean test that every snapshot fetched during the run carries the
stored signature `sig`, i.e. the whole run stays inside one epoch. -/
def epochStableB (sig : String) (inputs : List (Option Stock × Bool)) : Bool :=
  inputs.all (fun inp => inp.1.all (fun st => signature st == sig))

/-- The stand-alone Keyword Matcher `findNewKeywordItemsInCategory` of the
`FetchData.js` variants: iterates the items, skips entries whose `name` is
not a string, takes the first keyword (in keyword-list order) that is a
case-insensitive substring of the name, and records a result when the item's
token is not already in the notified set.  The set is never mutated. -/
def findNewKeywordItemsInCategory :
    List StockItem → String → List String → List String → List MatchResult
  | [], _, _, _ => []
  | it :: rest, categoryName, currentKeywords, notifiedItemsSet =>
    match it.name with
    | none => findNewKeywordItemsInCategory rest categoryName currentKeywords notifiedItemsSet
    | some n =>
      match firstKeywordMatch currentKeywords n with
      | some kw =>
        if n ++ "|" ++ categoryName ∈ notifiedItemsSet then
          findNewKeywordItemsInCategory rest categoryName currentKeywords notifiedItemsSet
        else
          ⟨n, categoryName, kw⟩ ::
            findNewKeywordItemsInCategory rest categoryName currentKeywords notifiedItemsSet
      | none => findNewKeywordItemsInCategory rest categoryName currentKeywords notifiedItemsSet

/-- The claim's characterization of the Keyword Matcher, transcribed from the
specification: an item yields a result exactly when its token is not in the
NotifiedSet (as it was before the matching step) and some keyword matches
case-insensitively; the recorded keyword is the first matching one. -/
def matcherSpec (cat : String) (kws : List String) (set : List String)
    (it : StockItem) : Option MatchResult :=
  match it.name with
  | none => none
  | some n =>
    if n ++ "|" ++ cat ∈ set then none
    else (firstKeywordMatch kws n).map (fun kw => (⟨n, cat, kw⟩ : MatchResult))

/-- The keyword list of the specification's scenario. -/
def kw9 : List String := ["Mango", "Bug Egg"]

/-- The snapshot of the specification's scenario: Mango in seeds, Bug Egg in
eggs. -/
def snap9 : Stock := ⟨[⟨some "Mango"⟩], [⟨some "Bug Egg"⟩], []⟩

/-- The scenario's starting state: empty NotifiedSet, empty previous
signature, idle. -/
def s9 : AppState := ⟨[], "", false⟩

/-- The scenario cycle, run outside quiet hours with a successful send. -/
def out9 : CycleOutcome := checkStockAndNotify kw9 s9 (some snap9) false true

/-- The consolidated message body the scenario cycle hands to the sender. -/
def body9 : String :=
  "*Grow A Garden Stock Alert!* 🌱\n\nNew items in stock:\n\n- *Mango* (Category: Seeds)\n- *Bug Egg* (Category: Egg)"

/-- The keyword list of the epoch witness run. -/
def kwE : List String := ["a"]

/-- The starting state of the epoch witness run: its stored signature is the
shared signature of `cex2A` and `cex2B`. -/
def sE : AppState := ⟨[], "a|Seeds,b|Egg", false⟩

/-- Two same-signature fetches (the `cex2A`/`cex2B` collision), both outside
quiet hours. -/
def inputsE : List (Option Stock × Bool) := [(some cex2A, false), (some cex2B, false)]

/-- The extraction step of `fetchStockData` for one category heading: if the
page has an `h2` with that text, each `li > span` raw text under it is
trimmed and, when non-empty, pushed as `{ name: itemName }`.  The parsed
page is abstracted as an association list from heading text to the raw
(untrimmed) extracted texts in document order. -/
def extractSection (page : List (String × List String)) (heading : String) :
    List StockItem :=
  match page.lookup heading with
  | none => []
  | some raws =>
    raws.filterMap (fun raw =>
      if jsTrim raw = "" then none else some ⟨some (jsTrim raw)⟩)

/-- The scraper `fetchStockData`: on any fetch or parse error (the `none`
page) it returns null; otherwise it builds the snapshot with exactly the
three arrays, folding the HONEY STOCK and COSMETICS STOCK sections into
`gearStock` after GEAR STOCK, in the fixed `stockCategories` order. -/
def fetchStockData (page : Option (List (String × List String))) :
    Option Stock :=
  match page with
  | none => none
  | some p =>
    some ⟨extractSection p "SEEDS STOCK", extractSection p "EGG STOCK",
      extractSection p "GEAR STOCK" ++ extractSection p "HONEY STOCK"
        ++ extractSection p "COSMETICS STOCK"⟩

/-- A concrete parsed page for the scraper witness. -/
def pageW : List (String × List String) :=
  [("SEEDS STOCK", [" Mango ", "  "]), ("HONEY STOCK", ["Honey Comb"])]

/-- The snapshot the scraper builds from `pageW`. -/
def stW : Stock := ⟨[⟨some "Mango"⟩], [], [⟨some "Honey Comb"⟩]⟩

theorem listLeb_total : ∀ x y : List Char, listLeb x y = true ∨ listLeb y x = true := by
  intro x
  induction x with
  | nil => intro y; left; rfl
  | cons a as ih =>
    intro y
    cases y with
    | nil => right; rfl
    | cons b bs =>
      rcases Nat.lt_trichotomy a.toNat b.toNat with hab | hab | hab
      · left; simp [listLeb, hab]
      · rcases ih bs with h | h
        · left; simp [listLeb, hab, h]
        · right; simp [listLeb, hab, h]
      · right; simp [listLeb, hab]

theorem listLeb_trans :
    ∀ x y z : List Char, listLeb x y = true → listLeb y z = true →
      listLeb x z = true := by
  intro x
  induction x with
  | nil => intro y z _ _; rfl
  | cons a as ih =>
    intro y z h1 h2
    cases y with
    | nil => simp [listLeb] at h1
    | cons b bs =>
      cases z with
      | nil => simp [listLeb] at h2
      | cons c cs =>
        simp only [listLeb] at h1 h2 ⊢
        rcases Nat.lt_trichotomy a.toNat b.toNat with hab | hab | hab <;>
          rcases Nat.lt_trichotomy b.toNat c.toNat with hbc | hbc | hbc
        · rw [if_pos (by omega)]
        · rw [if_pos (by omega)]
        · rw [if_neg (by omega), if_pos (by omega)] at h2; simp at h2
        · rw [if_pos (by omega)]
        · rw [if_neg (by omega), if_neg (by omega)] at h1 h2 ⊢
          exact ih bs cs h1 h2
        · rw [if_neg (by omega), if_pos (by omega)] at h2; simp at h2
        · rw [if_neg (by omega), if_pos (by omega)] at h1; simp at h1
        · rw [if_neg (by omega), if_pos (by omega)] at h1; simp at h1
        · rw [if_neg (by omega), if_pos (by omega)] at h1; simp at h1

theorem listLeb_antisymm :
    ∀ x y : List Char, listLeb x y = true → listLeb y x = true → x = y := by
  intro x
  induction x with
  | nil =>
    intro y h1 h2
    cases y with
    | nil => rfl
    | cons b bs => simp [listLeb] at h2
  | cons a as ih =>
    intro y h1 h2
    cases y with
    | nil => simp [listLeb] at h1
    | cons b bs =>
      simp only [listLeb] at h1 h2
      rcases Nat.lt_trichotomy a.toNat b.toNat with hab | hab | hab
      · rw [if_neg (by omega), if_pos (by omega)] at h2; simp at h2
      · rw [if_neg (by omega), if_neg (by omega)] at h1 h2
        have hchar : a = b := Char.ext (UInt32.toNat.inj hab)
        rw [hchar, ih bs h1 h2]
      · rw [if_neg (by omega), if_pos (by omega)] at h1; simp at h1

theorem sortStrings_perm (l : List String) : (sortStrings l).Perm l :=
  List.perm_insertionSort _ l

theorem sortStrings_sorted (l : List String) :
    List.Sorted (fun a b => strLeb a b = true) (sortStrings l) :=
  @List.sorted_insertionSort String (fun a b => strLeb a b = true) _
    ⟨fun a b => listLeb_total a.data b.data⟩
    ⟨fun a b c => listLeb_trans a.data b.data c.data⟩ l

theorem sortStrings_eq_of_perm {l1 l2 : List String} (h : l1.Perm l2) :
    sortStrings l1 = sortStrings l2 :=
  @List.eq_of_perm_of_sorted String (fun a b => strLeb a b = true)
    ⟨fun a b h1 h2 => String.ext (listLeb_antisymm a.data b.data h1 h2)⟩ _ _
    ((sortStrings_perm l1).trans (h.trans (sortStrings_perm l2).symm))
    (sortStrings_sorted l1) (sortStrings_sorted l2)

theorem joinComma_data : ∀ l : List String, (joinComma l).data = joinData (l.map String.data)
  | [] => rfl
  | [x] => rfl
  | x :: y :: ys => by
    have hc : ("," : String).data = [','] := rfl
    simp [joinComma, joinData, String.data_append, hc, joinComma_data (y :: ys)]

/-- Splitting a character list at a separator that occurs in neither half is
unambiguous. -/
theorem append_sep_inj {c : Char} :
    ∀ (a b x y : List Char), a ++ c :: x = b ++ c :: y → c ∉ a → c ∉ b →
      a = b ∧ x = y := by
  intro a
  induction a with
  | nil =>
    intro b x y h ha hb
    cases b with
    | nil => simpa using h
    | cons d bs =>
      simp only [List.nil_append, List.cons_append, List.cons.injEq] at h
      exact absurd (h.1 ▸ List.mem_cons_self d bs) hb
  | cons d as ih =>
    intro b x y h ha hb
    cases b with
    | nil =>
      simp only [List.nil_append, List.cons_append, List.cons.injEq] at h
      exact absurd (h.1 ▸ List.mem_cons_self d as) ha
    | cons e bs =>
      simp only [List.cons_append, List.cons.injEq] at h
      obtain ⟨rfl, h2⟩ := h
      have ha' : c ∉ as := fun hmem => ha (List.mem_cons_of_mem _ hmem)
      have hb' : c ∉ bs := fun hmem => hb (List.mem_cons_of_mem _ hmem)
      obtain ⟨rfl, hxy⟩ := ih bs x y h2 ha' hb'
      exact ⟨rfl, hxy⟩

/-- Joining with a comma is injective on lists of non-empty, comma-free
character lists. -/
theorem joinData_inj :
    ∀ (L1 L2 : List (List Char)),
      (∀ t ∈ L1, t ≠ [] ∧ ',' ∉ t) → (∀ t ∈ L2, t ≠ [] ∧ ',' ∉ t) →
      joinData L1 = joinData L2 → L1 = L2 := by
  intro L1
  induction L1 with
  | nil =>
    intro L2 _ hp2 h
    cases L2 with
    | nil => rfl
    | cons b bs =>
      cases bs with
      | nil => exact absurd h.symm (hp2 b (by simp)).1
      | cons c cs =>
        exfalso
        simp only [joinData] at h
        rcases List.append_eq_nil.mp h.symm with ⟨hb, _⟩
        exact (hp2 b (by simp)).1 hb
  | cons a as ih =>
    intro L2 hp1 hp2 h
    cases as with
    | nil =>
      cases L2 with
      | nil => exact absurd h (hp1 a (by simp)).1
      | cons b bs =>
        cases bs with
        | nil => simpa [joinData] using h
        | cons c cs =>
          exfalso
          simp only [joinData] at h
          exact (hp1 a (by simp)).2 (h ▸ (by simp : ',' ∈ b ++ ',' :: joinData (c :: cs)))
    | cons a' as' =>
      cases L2 with
      | nil =>
        exfalso
        simp only [joinData] at h
        rcases List.append_eq_nil.mp h with ⟨ha, _⟩
        exact (hp1 a (by simp)).1 ha
      | cons b bs =>
        cases bs with
        | nil =>
          exfalso
          simp only [joinData] at h
          exact (hp2 b (by simp)).2
            (h ▸ (by simp : ',' ∈ a ++ ',' :: joinData (a' :: as')))
        | cons b' bs' =>
          simp only [joinData] at h
          obtain ⟨rfl, htail⟩ :=
            append_sep_inj a b (joinData (a' :: as')) (joinData (b' :: bs')) h
              (hp1 a (by simp)).2 (hp2 b (by simp)).2
          have := ih (b' :: bs')
            (fun t ht => hp1 t (List.mem_cons_of_mem _ ht))
            (fun t ht => hp2 t (List.mem_cons_of_mem _ ht)) htail
          rw [this]

theorem encode_data (p : String × String) :
    (encodeToken p).data = p.1.data ++ '|' :: p.2.data := by
  have hb : ("|" : String).data = ['|'] := rfl
  simp [encodeToken, String.data_append, hb]

theorem rev_mid (a b : List Char) :
    (a ++ '|' :: b).reverse = (b.reverse ++ ['|']) ++ a.reverse := by
  simp

/-- A helper: if two concatenations are equal but neither left part is a
leading run of the other, we have a contradiction. -/
theorem cross_absurd {u v x y : List Char} (h : u ++ x = v ++ y)
    (h1 : ¬ u <+: v) (h2 : ¬ v <+: u) : False := by
  have hv : v <+: u ++ x := by rw [h]; exact List.prefix_append v y
  rcases List.prefix_or_prefix_of_prefix (List.prefix_append u x) hv with hc | hc
  · exact h1 hc
  · exact h2 hc

/-- Tokens decode uniquely back to their `(name, label)` pair: the three
category labels of the orchestrator cannot be confused with one another,
even when item names contain the `|` separator. -/
theorem token_inj (p q : String × String)
    (hp : p.2 = seedsLabel ∨ p.2 = eggLabel ∨ p.2 = gearLabel)
    (hq : q.2 = seedsLabel ∨ q.2 = eggLabel ∨ q.2 = gearLabel)
    (h : encodeToken p = encodeToken q) : p = q := by
  obtain ⟨n1, c1⟩ := p
  obtain ⟨n2, c2⟩ := q
  have hd : n1.data ++ '|' :: c1.data = n2.data ++ '|' :: c2.data := by
    have := congrArg String.data h
    rwa [encode_data, encode_data] at this
  have hrev : (c1.data.reverse ++ ['|']) ++ n1.data.reverse
      = (c2.data.reverse ++ ['|']) ++ n2.data.reverse := by
    have := congrArg List.reverse hd
    rwa [rev_mid, rev_mid] at this
  simp only at hp hq
  have names_eq : c1 = c2 → n1 = n2 := by
    intro hc
    subst hc
    exact String.ext (List.reverse_injective (List.append_cancel_left hrev))
  rcases hp with rfl | rfl | rfl <;> rcases hq with rfl | rfl | rfl
  · exact Prod.ext (names_eq rfl) rfl
  · exact absurd hrev (fun hr => cross_absurd hr (by decide) (by decide))
  · exact absurd hrev (fun hr => cross_absurd hr (by decide) (by decide))
  · exact absurd hrev (fun hr => cross_absurd hr (by decide) (by decide))
  · exact Prod.ext (names_eq rfl) rfl
  · exact absurd hrev (fun hr => cross_absurd hr (by decide) (by decide))
  · exact absurd hrev (fun hr => cross_absurd hr (by decide) (by decide))
  · exact absurd hrev (fun hr => cross_absurd hr (by decide) (by decide))
  · exact Prod.ext (names_eq rfl) rfl

/-- A permutation of images under a map that is injective on the elements in
play comes from a permutation of the original lists. -/
theorem perm_of_map_perm {α β : Type} [DecidableEq α] (f : α → β) :
    ∀ (l1 l2 : List α), (∀ a ∈ l1, ∀ b ∈ l2, f a = f b → a = b) →
      (l1.map f).Perm (l2.map f) → l1.Perm l2 := by
  intro l1
  induction l1 with
  | nil =>
    intro l2 _ h
    have h0 : l2.map f = [] := List.Perm.nil_eq h |>.symm
    rw [List.map_eq_nil_iff.mp h0]
  | cons a as ih =>
    intro l2 hinj h
    have hfa : f a ∈ l2.map f := h.mem_iff.mp (by simp)
    rcases List.mem_map.mp hfa with ⟨b, hb, hfb⟩
    have hab : a = b := hinj a (by simp) b hb hfb.symm
    rw [← hab] at hb
    have hl2 : l2.Perm (a :: l2.erase a) := List.perm_cons_erase hb
    have hmap : (l2.map f).Perm (f a :: (l2.erase a).map f) := by
      simpa using hl2.map f
    have h2 : (as.map f).Perm ((l2.erase a).map f) := (h.trans hmap).cons_inv
    have has : as.Perm (l2.erase a) :=
      ih (l2.erase a)
        (fun x hx y hy => hinj x (List.mem_cons_of_mem _ hx) y (List.erase_subset _ _ hy))
        h2
    exact (List.Perm.cons a has).trans hl2.symm

theorem pairs_label (st : Stock) :
    ∀ p ∈ pairs st, p.2 = seedsLabel ∨ p.2 = eggLabel ∨ p.2 = gearLabel := by
  intro p hp
  simp only [pairs, List.mem_append, List.mem_map] at hp
  rcases hp with (⟨n, _, rfl⟩ | ⟨n, _, rfl⟩) | ⟨n, _, rfl⟩ <;> simp

theorem token_props (st : Stock) (hnames : ∀ p ∈ pairs st, ',' ∉ p.1.data) :
    ∀ t ∈ (sortStrings (sigTokens st)).map String.data, t ≠ [] ∧ ',' ∉ t := by
  intro t ht
  rcases List.mem_map.mp ht with ⟨s, hs, rfl⟩
  have hs' : s ∈ sigTokens st := (sortStrings_perm _).mem_iff.mp hs
  rcases List.mem_map.mp hs' with ⟨p, hp, rfl⟩
  rw [encode_data]
  refine ⟨by simp, ?_⟩
  intro hmem
  rcases List.mem_append.mp hmem with hin | hin
  · exact hnames p hp hin
  · rcases List.mem_cons.mp hin with hin | hin
    · exact absurd hin (by decide)
    · rcases pairs_label st p hp with hc | hc | hc <;> rw [hc] at hin <;>
        exact absurd hin (by decide)

/-- Signature Engine, amended: for snapshots whose (truthy) item names are
comma-free, the signature string is equal exactly when the multisets of
`(name, mapped category label)` pairs coincide.  Permutation invariance and
sensitivity to adding, removing or renaming an item are instances of this
equivalence.  Without the comma-freeness restriction the equivalence fails
(`signature_collision`). -/
theorem signature_eq_iff_pairs_perm (s1 s2 : Stock)
    (h1 : ∀ p ∈ pairs s1, ',' ∉ p.1.data)
    (h2 : ∀ p ∈ pairs s2, ',' ∉ p.1.data) :
    signature s1 = signature s2 ↔ (pairs s1).Perm (pairs s2) := by
  constructor
  · intro h
    have hjoin : joinData ((sortStrings (sigTokens s1)).map String.data)
        = joinData ((sortStrings (sigTokens s2)).map String.data) := by
      have := congrArg String.data h
      rwa [signature, signature, joinComma_data, joinComma_data] at this
    have hdata := joinData_inj _ _ (token_props s1 h1) (token_props s2 h2) hjoin
    have hsorted : sortStrings (sigTokens s1) = sortStrings (sigTokens s2) :=
      List.map_injective_iff.mpr (fun _ _ hab => String.ext hab) hdata
    have htok : (sigTokens s1).Perm (sigTokens s2) := by
      have hp2 := sortStrings_perm (sigTokens s2)
      rw [← hsorted] at hp2
      exact (sortStrings_perm (sigTokens s1)).symm.trans hp2
    exact perm_of_map_perm encodeToken _ _
      (fun a ha b hb hab =>
        token_inj a b (pairs_label s1 a ha) (pairs_label s2 b hb) hab) htok
  · intro h
    have hsorted : sortStrings (sigTokens s1) = sortStrings (sigTokens s2) :=
      sortStrings_eq_of_perm (h.map encodeToken)
    rw [signature, signature, hsorted]

/-- Signature Engine, counterexample to the unrestricted claim: two
snapshots with different `(name, category)` multisets but identical
signature strings, because item names may contain the `,` join separator. -/
theorem signature_collision :
    signature cex2A = signature cex2B ∧ ¬ (pairs cex2A).Perm (pairs cex2B) := by
  constructor
  · decide
  · decide

theorem signature_eq_iff_pairs_perm_witness :
    (∀ p ∈ pairs wit2A, ',' ∉ p.1.data) ∧ (∀ p ∈ pairs wit2B, ',' ∉ p.1.data) ∧
    (signature wit2A = signature wit2B ↔ (pairs wit2A).Perm (pairs wit2B)) :=
  ⟨by decide, by decide,
    signature_eq_iff_pairs_perm wit2A wit2B (by decide) (by decide)⟩

/-- Time Gate, quiet hours: for hours of day (h < 24) the decision returns
true exactly on `[start, end)` when `start < end`, and exactly on
`[start, 24) ∪ [0, end)` when `start ≥ end` (overnight window). -/
theorem isQuietHours_spec (s e h : Nat) (hh : h < 24) :
    isQuietHours s e h = true ↔
      (if s < e then s ≤ h ∧ h < e else (s ≤ h ∧ h < 24) ∨ h < e) := by
  simp only [isQuietHours]
  split
  · simp
  · simp
    omega

theorem isQuietHours_spec_witness :
    (23 < 24) ∧
    (isQuietHours 22 7 23 = true ↔
      (if 22 < 7 then 22 ≤ 23 ∧ 23 < 7 else (22 ≤ 23 ∧ 23 < 24) ∨ 23 < 7)) :=
  ⟨by decide, isQuietHours_spec 22 7 23 (by decide)⟩

/-- Keyword Matcher: the output of `findNewKeywordItemsInCategory` contains
exactly one MatchResult per qualifying item, in item order, with the first
matching keyword recorded, and judged against the set as it was before the
matching step (the set is read-only here). -/
theorem findNewKeywordItems_spec
    (items : List StockItem) (cat : String) (kws : List String)
    (set : List String) :
    findNewKeywordItemsInCategory items cat kws set
      = items.filterMap (matcherSpec cat kws set) := by
  induction items with
  | nil => rfl
  | cons it rest ih =>
    cases hn : it.name with
    | none =>
      simp [findNewKeywordItemsInCategory, List.filterMap_cons, matcherSpec, hn, ih]
    | some n =>
      cases hk : firstKeywordMatch kws n with
      | none =>
        by_cases hmem : n ++ "|" ++ cat ∈ set <;>
          simp [findNewKeywordItemsInCategory, List.filterMap_cons, matcherSpec,
            hn, hk, hmem, ih]
      | some kw =>
        by_cases hmem : n ++ "|" ++ cat ∈ set <;>
          simp [findNewKeywordItemsInCategory, List.filterMap_cons, matcherSpec,
            hn, hk, hmem, ih]

theorem matchCategory_spec (kws : List String) (cat : String) :
    ∀ (items : List StockItem) (acc : List String),
      acc ⊆ (matchCategory kws cat items acc).2 ∧
      ∀ m ∈ (matchCategory kws cat items acc).1,
        tokenOf m ∈ (matchCategory kws cat items acc).2 ∧ tokenOf m ∉ acc := by
  intro items
  induction items with
  | nil =>
    intro acc
    exact ⟨fun x hx => hx, by intro m hm; simp [matchCategory] at hm⟩
  | cons it rest ih =>
    intro acc
    cases htn : truthyName it with
    | none =>
      simp only [matchCategory, htn]
      exact ih acc
    | some n =>
      by_cases hmem : n ++ "|" ++ cat ∈ acc
      · simp only [matchCategory, htn, if_pos hmem]
        exact ih acc
      · cases hk : firstKeywordMatch kws n with
        | none =>
          simp only [matchCategory, htn, if_neg hmem, hk]
          exact ih acc
        | some kw =>
          simp only [matchCategory, htn, if_neg hmem, hk]
          have hacc : acc ⊆ addToken (n ++ "|" ++ cat) acc := by
            simp only [addToken, if_neg hmem]
            exact fun x hx => List.mem_append_left _ hx
          have htok : n ++ "|" ++ cat ∈ addToken (n ++ "|" ++ cat) acc := by
            simp [addToken, if_neg hmem]
          obtain ⟨hsub, hms⟩ := ih (addToken (n ++ "|" ++ cat) acc)
          refine ⟨hacc.trans hsub, ?_⟩
          intro m hm
          rcases List.mem_cons.mp hm with rfl | hm'
          · exact ⟨hsub htok, by simpa [tokenOf] using hmem⟩
          · obtain ⟨hin, hnin⟩ := hms m hm'
            exact ⟨hin, fun hcon => hnin (hacc hcon)⟩

theorem matchAll_spec (kws : List String) (st : Stock) (acc : List String) :
    acc ⊆ (matchAll kws st acc).2 ∧
    ∀ m ∈ (matchAll kws st acc).1,
      tokenOf m ∈ (matchAll kws st acc).2 ∧ tokenOf m ∉ acc := by
  obtain ⟨h1s, h1m⟩ := matchCategory_spec kws seedsLabel st.seedsStock acc
  obtain ⟨h2s, h2m⟩ := matchCategory_spec kws eggLabel st.eggStock
    (matchCategory kws seedsLabel st.seedsStock acc).2
  obtain ⟨h3s, h3m⟩ := matchCategory_spec kws gearLabel st.gearStock
    (matchCategory kws eggLabel st.eggStock
      (matchCategory kws seedsLabel st.seedsStock acc).2).2
  refine ⟨h1s.trans (h2s.trans h3s), ?_⟩
  intro m hm
  simp only [matchAll, List.mem_append] at hm
  rcases hm with (hm | hm) | hm
  · obtain ⟨hin, hnin⟩ := h1m m hm
    exact ⟨h3s (h2s hin), hnin⟩
  · obtain ⟨hin, hnin⟩ := h2m m hm
    exact ⟨h3s hin, fun hcon => hnin (h1s hcon)⟩
  · obtain ⟨hin, hnin⟩ := h3m m hm
    exact ⟨hin, fun hcon => hnin (h2s (h1s hcon))⟩

/-- Every token of the batch is in the notified set afterwards, with no
assumption on the cycle's inputs. -/
theorem cycle_tokens_mem (kws : List String) (s : AppState) (f : Option Stock)
    (q b : Bool) :
    ∀ m ∈ (checkStockAndNotify kws s f q b).newlyFound,
      tokenOf m ∈ (checkStockAndNotify kws s f q b).state.notified := by
  cases hrun : s.isCheckRunning
  · cases f with
    | none => simp [checkStockAndNotify, hrun]
    | some stock =>
      simp only [checkStockAndNotify, hrun, Bool.false_eq_true, if_false]
      intro m hm
      exact ((matchAll_spec kws stock _).2 m hm).1
  · simp [checkStockAndNotify, hrun]

/-- Deduplicator marking, as the orchestrator performs it: the post-cycle
state (notified set, stored signature, lock) is independent of the
quiet-hours verdict and of the Alert Sender's success value, and every
matched item's token is in the notified set afterwards — whether the send
was suppressed, failed, or succeeded. -/
theorem marks_survive_gate_and_failure (kws : List String) (s : AppState)
    (f : Option Stock) (q1 b1 q2 b2 : Bool) :
    (checkStockAndNotify kws s f q1 b1).state
        = (checkStockAndNotify kws s f q2 b2).state ∧
    (checkStockAndNotify kws s f q1 b1).newlyFound
        = (checkStockAndNotify kws s f q2 b2).newlyFound ∧
    ∀ m ∈ (checkStockAndNotify kws s f q1 b1).newlyFound,
      tokenOf m ∈ (checkStockAndNotify kws s f q1 b1).state.notified := by
  refine ⟨?_, ?_, cycle_tokens_mem kws s f q1 b1⟩ <;>
    cases hrun : s.isCheckRunning <;> cases f <;> simp [checkStockAndNotify, hrun]

/-- Concurrency guard: an invocation that finds the lock held is a complete
no-op — same state (lock included), no batch, no send. -/
theorem skip_when_already_running (kws : List String) (s : AppState)
    (f : Option Stock) (q b : Bool) (h : s.isCheckRunning = true) :
    checkStockAndNotify kws s f q b = ⟨s, [], none⟩ := by
  simp [checkStockAndNotify, h]

theorem skip_when_already_running_witness :
    checkStockAndNotify ["Mango"] ⟨["t|Egg"], "sig", true⟩ none true false
      = ⟨⟨["t|Egg"], "sig", true⟩, [], none⟩ :=
  skip_when_already_running ["Mango"] ⟨["t|Egg"], "sig", true⟩ none true false rfl

/-- Lock release: an invocation that acquires the lock ends with the lock
released on every exit path — fetch failure, no matches, quiet hours, send
success or failure, and an exception thrown at any intermediate state. -/
theorem lock_released_on_every_exit (kws : List String) (s : AppState)
    (f : Option Stock) (q b : Bool) (fault : Option AppState)
    (h : s.isCheckRunning = false) :
    (checkStockAndNotifyWithFault kws s f q b fault).state.isCheckRunning
      = false := by
  cases fault with
  | some mid => simp [checkStockAndNotifyWithFault, h, releaseLock]
  | none =>
    simp only [checkStockAndNotifyWithFault, h, Bool.false_eq_true, if_false]
    cases f <;> simp [checkStockAndNotify, h]

theorem lock_released_on_every_exit_witness :
    (checkStockAndNotifyWithFault ["Mango"] ⟨[], "", false⟩
        (some ⟨[⟨some "Mango"⟩], [], []⟩) false true
        (some ⟨["x|Egg"], "y", true⟩)).state.isCheckRunning = false :=
  lock_released_on_every_exit ["Mango"] ⟨[], "", false⟩
    (some ⟨[⟨some "Mango"⟩], [], []⟩) false true (some ⟨["x|Egg"], "y", true⟩) rfl

/-- Fetch failure: when the Stock Provider returns null, the cycle returns
early having mutated nothing — the notified set and the stored signature are
exactly as before, no batch is produced, no send is attempted. -/
theorem fetch_failure_mutates_nothing (kws : List String) (s : AppState)
    (q b : Bool) (h : s.isCheckRunning = false) :
    checkStockAndNotify kws s none q b = ⟨s, [], none⟩ := by
  obtain ⟨n, p, run⟩ := s
  simp only at h
  subst h
  simp [checkStockAndNotify]

theorem fetch_failure_mutates_nothing_witness :
    checkStockAndNotify ["Mango"] ⟨["a|Seeds"], "a|Seeds", false⟩ none false true
      = ⟨⟨["a|Seeds"], "a|Seeds", false⟩, [], none⟩ :=
  fetch_failure_mutates_nothing ["Mango"] ⟨["a|Seeds"], "a|Seeds", false⟩
    false true rfl

/-- Scenario, counterexample to the claimed NotifiedSet: the orchestrator's
`categoryMap` labels the seeds category `Seeds`, so the token recorded for
Mango is `Mango|Seeds` and the claimed token `Mango|Seed` is not present. -/
theorem scenario_token_differs : "Mango|Seed" ∉ out9.state.notified := by decide

/-- Scenario, amended: the cycle yields 2 MatchResults, leaves the
NotifiedSet equal to the tokens `Mango|Seeds` and `Bug Egg|Egg`, and sends
one consolidated body mentioning both items. -/
theorem scenario_amended :
    out9.newlyFound.length = 2 ∧
    out9.state.notified = ["Mango|Seeds", "Bug Egg|Egg"] ∧
    out9.sentBody = some body9 ∧
    jsIncludes body9 "Mango" = true ∧ jsIncludes body9 "Bug Egg" = true :=
  ⟨by decide, by decide, by decide, by decide, by decide⟩

theorem marks_survive_witness :
    tokenOf ⟨"Mango", "Seeds", "Mango"⟩
      ∈ (checkStockAndNotify kw9 s9 (some snap9) true false).state.notified :=
  (marks_survive_gate_and_failure kw9 s9 (some snap9) true false false true).2.2
    ⟨"Mango", "Seeds", "Mango"⟩ (by decide)

theorem epochStableB_cons {sig : String} {inp : Option Stock × Bool}
    {rest : List (Option Stock × Bool)}
    (h : epochStableB sig (inp :: rest) = true) :
    (∀ st, inp.1 = some st → signature st = sig) ∧
      epochStableB sig rest = true := by
  simp only [epochStableB, List.all_cons, Bool.and_eq_true] at h
  refine ⟨?_, h.2⟩
  intro st hst
  have h1 := h.1
  rw [hst] at h1
  simpa [Option.all] using h1

/-- Helper: the outcome of a cycle whose fetch fails, once the lock is
free. -/
theorem cycle_none_eq (kws : List String) (s : AppState) (q b : Bool)
    (hrun : s.isCheckRunning = false) :
    checkStockAndNotify kws s none q b
      = ⟨⟨s.notified, s.prevSig, false⟩, [], none⟩ := by
  simp [checkStockAndNotify, hrun]

/-- Helper: the outcome of a cycle whose snapshot carries the stored
signature (no reset), once the lock is free. -/
theorem cycle_same_sig_eq (kws : List String) (s : AppState) (stock : Stock)
    (q b : Bool) (hrun : s.isCheckRunning = false)
    (hsig : signature stock = s.prevSig) :
    checkStockAndNotify kws s (some stock) q b
      = ⟨⟨(matchAll kws stock s.notified).2, s.prevSig, false⟩,
         (matchAll kws stock s.notified).1,
         (if (matchAll kws stock s.notified).1.isEmpty then none
          else if q = true then none
          else some (buildBody (matchAll kws stock s.notified).1))⟩ := by
  simp [checkStockAndNotify, hrun, hsig]

/-- One cycle inside an epoch: the notified set only grows, the stored
signature is unchanged, and every match's token enters the set while not
having been in it before. -/
theorem cycle_within_epoch (kws : List String) (s : AppState)
    (f : Option Stock) (q b : Bool)
    (hep : ∀ st, f = some st → signature st = s.prevSig) :
    s.notified ⊆ (checkStockAndNotify kws s f q b).state.notified ∧
    (checkStockAndNotify kws s f q b).state.prevSig = s.prevSig ∧
    ∀ m ∈ (checkStockAndNotify kws s f q b).newlyFound,
      tokenOf m ∈ (checkStockAndNotify kws s f q b).state.notified ∧
        tokenOf m ∉ s.notified := by
  cases hrun : s.isCheckRunning
  · cases f with
    | none =>
      rw [cycle_none_eq kws s q b hrun]
      exact ⟨fun x hx => hx, rfl, by intro m hm; simp at hm⟩
    | some stock =>
      rw [cycle_same_sig_eq kws s stock q b hrun (hep stock rfl)]
      obtain ⟨hsub, hms⟩ := matchAll_spec kws stock s.notified
      exact ⟨hsub, rfl, hms⟩
  · have hout : checkStockAndNotify kws s f q b = ⟨s, [], none⟩ := by
      simp [checkStockAndNotify, hrun]
    rw [hout]
    exact ⟨fun x hx => hx, rfl, by intro m hm; simp at hm⟩

/-- A token already in the notified set is never matched again anywhere in a
run that stays inside the epoch. -/
theorem trace_persist (kws : List String) (t : String) :
    ∀ (inputs : List (Option Stock × Bool)) (s : AppState),
      epochStableB s.prevSig inputs = true → t ∈ s.notified →
      ∀ (j : Nat) (lj : List MatchResult),
        (traceMatches kws s inputs)[j]? = some lj →
        ∀ m ∈ lj, tokenOf m ≠ t := by
  intro inputs
  induction inputs with
  | nil =>
    intro s _ _ j lj hj
    simp [traceMatches] at hj
  | cons inp rest ih =>
    intro s hep ht j lj hj
    obtain ⟨hhead, htail⟩ := epochStableB_cons hep
    obtain ⟨hsub, hsig, hms⟩ := cycle_within_epoch kws s inp.1 inp.2 true hhead
    cases j with
    | zero =>
      simp only [traceMatches, List.getElem?_cons_zero, Option.some.injEq] at hj
      subst hj
      intro m hm hcon
      exact (hms m hm).2 (hcon ▸ ht)
    | succ j' =>
      simp only [traceMatches, List.getElem?_cons_succ] at hj
      have hep' : epochStableB
          (checkStockAndNotify kws s inp.1 inp.2 true).state.prevSig rest
            = true := by
        rw [hsig]; exact htail
      exact ih (checkStockAndNotify kws s inp.1 inp.2 true).state hep'
        (hsub ht) j' lj hj

/-- Deduplicator invariant: during a run of consecutive cycles that stays
inside one epoch (every fetched snapshot carries the stored signature, so
the NotifiedSet is never cleared), a token that appears in the match batch
of one cycle never appears in the match batch of any later cycle. -/
theorem token_matched_at_most_once_per_epoch (kws : List String) :
    ∀ (inputs : List (Option Stock × Bool)) (s0 : AppState),
      epochStableB s0.prevSig inputs = true →
      ∀ (i j : Nat), i < j →
      ∀ (li lj : List MatchResult),
        (traceMatches kws s0 inputs)[i]? = some li →
        (traceMatches kws s0 inputs)[j]? = some lj →
        ∀ m ∈ li, ∀ m' ∈ lj, tokenOf m' ≠ tokenOf m := by
  intro inputs
  induction inputs with
  | nil =>
    intro s0 _ i j _ li lj hi _ m hm m' hm'
    simp [traceMatches] at hi
  | cons inp rest ih =>
    intro s0 hep i j hij li lj hi hj m hm m' hm'
    obtain ⟨hhead, htail⟩ := epochStableB_cons hep
    obtain ⟨hsub, hsig, hms⟩ := cycle_within_epoch kws s0 inp.1 inp.2 true hhead
    have hep' : epochStableB
        (checkStockAndNotify kws s0 inp.1 inp.2 true).state.prevSig rest
          = true := by
      rw [hsig]; exact htail
    cases i with
    | zero =>
      cases j with
      | zero => omega
      | succ j' =>
        simp only [traceMatches, List.getElem?_cons_zero, Option.some.injEq] at hi
        subst hi
        simp only [traceMatches, List.getElem?_cons_succ] at hj
        exact trace_persist kws (tokenOf m) rest
          (checkStockAndNotify kws s0 inp.1 inp.2 true).state hep'
          (hms m hm).1 j' lj hj m' hm'
    | succ i' =>
      cases j with
      | zero => omega
      | succ j' =>
        simp only [traceMatches, List.getElem?_cons_succ] at hi hj
        exact ih (checkStockAndNotify kws s0 inp.1 inp.2 true).state hep'
          i' j' (by omega) li lj hi hj m hm m' hm'

theorem token_matched_at_most_once_witness :
    epochStableB sE.prevSig inputsE = true ∧
    (traceMatches kwE sE inputsE)[0]? = some [⟨"a", "Seeds", "a"⟩] ∧
    (traceMatches kwE sE inputsE)[1]? = some [⟨"a|Seeds,b", "Egg", "a"⟩] ∧
    tokenOf ⟨"a|Seeds,b", "Egg", "a"⟩ ≠ tokenOf ⟨"a", "Seeds", "a"⟩ :=
  ⟨by decide, by decide, by decide,
    token_matched_at_most_once_per_epoch kwE inputsE sE (by decide) 0 1
      (by decide) [⟨"a", "Seeds", "a"⟩] [⟨"a|Seeds,b", "Egg", "a"⟩]
      (by decide) (by decide) ⟨"a", "Seeds", "a"⟩ (by decide)
      ⟨"a|Seeds,b", "Egg", "a"⟩ (by decide)⟩

theorem extractSection_names (page : List (String × List String))
    (heading : String) :
    ∀ it ∈ extractSection page heading, ∃ n, it.name = some n ∧ n ≠ "" := by
  intro it hit
  unfold extractSection at hit
  cases hlk : page.lookup heading with
  | none => rw [hlk] at hit; simp at hit
  | some raws =>
    rw [hlk] at hit
    rcases List.mem_filterMap.mp hit with ⟨raw, _, hsome⟩
    by_cases htrim : jsTrim raw = ""
    · rw [if_pos htrim] at hsome
      exact absurd hsome (by simp)
    · rw [if_neg htrim] at hsome
      injection hsome with h
      subst h
      exact ⟨jsTrim raw, rfl, htrim⟩

/-- Scraper invariants: a fetch or parse error yields null rather than a
snapshot; a returned snapshot consists of exactly the three arrays with the
HONEY and COSMETICS sections folded into `gearStock`, and every item in any
of the arrays carries a non-empty name. -/
theorem fetchStockData_spec :
    fetchStockData none = none ∧
    ∀ p st, fetchStockData (some p) = some st →
      st = ⟨extractSection p "SEEDS STOCK", extractSection p "EGG STOCK",
            extractSection p "GEAR STOCK" ++ extractSection p "HONEY STOCK"
              ++ extractSection p "COSMETICS STOCK"⟩ ∧
      (∀ it ∈ st.seedsStock ++ st.eggStock ++ st.gearStock,
        ∃ n, it.name = some n ∧ n ≠ "") ∧
      (∀ raws, p.lookup "HONEY STOCK" = some raws →
        ∀ raw ∈ raws, jsTrim raw ≠ "" →
          (⟨some (jsTrim raw)⟩ : StockItem) ∈ st.gearStock) ∧
      (∀ raws, p.lookup "COSMETICS STOCK" = some raws →
        ∀ raw ∈ raws, jsTrim raw ≠ "" →
          (⟨some (jsTrim raw)⟩ : StockItem) ∈ st.gearStock) := by
  refine ⟨rfl, ?_⟩
  intro p st hst
  simp only [fetchStockData, Option.some.injEq] at hst
  subst hst
  refine ⟨rfl, ?_, ?_, ?_⟩
  · intro it hit
    simp only [List.mem_append] at hit
    rcases hit with ((hit | hit) | ((hit | hit) | hit)) <;>
      exact extractSection_names p _ it hit
  · intro raws hlk raw hraw htrim
    have hin : (⟨some (jsTrim raw)⟩ : StockItem)
        ∈ extractSection p "HONEY STOCK" := by
      unfold extractSection
      rw [hlk]
      exact List.mem_filterMap.mpr ⟨raw, hraw, by rw [if_neg htrim]⟩
    exact List.mem_append_left _ (List.mem_append_right _ hin)
  · intro raws hlk raw hraw htrim
    have hin : (⟨some (jsTrim raw)⟩ : StockItem)
        ∈ extractSection p "COSMETICS STOCK" := by
      unfold extractSection
      rw [hlk]
      exact List.mem_filterMap.mpr ⟨raw, hraw, by rw [if_neg htrim]⟩
    exact List.mem_append_right _ hin

theorem fetchStockData_spec_witness :
    (⟨some "Honey Comb"⟩ : StockItem) ∈ stW.gearStock :=
  (fetchStockData_spec.2 pageW stW (by decide)).2.2.1 ["Honey Comb"] (by decide)
    "Honey Comb" (by decide) (by decide)

end StockAlert

